import Mathlib

/-!
Verification of the SingaTransit transit-routing core.

The TypeScript sources are shallowly embedded:
* JavaScript numbers carrying durations, weights and distances become ℚ;
* JavaScript strings become String;
* string-keyed objects whose enumeration order matters (the transit graph and
  the stop-metadata file, both iterated with Object.entries) become ordered
  association lists, while objects used only through keyed reads and writes
  (distances, previous, visited) become functions into Option;
* `undefined` becomes none, and the two distinct JavaScript coalescing
  operators are modelled separately: `x ?? Infinity` treats only a missing
  entry as infinite, `x || Infinity` also treats a stored 0 as infinite.
-/

/- The arithmetic of the embedding lives in ℚ. The library marks the rational
operations irreducible, which blocks the evaluation of concrete runs inside
decide; restore their reducibility so witnesses can evaluate the embedded
code on concrete inputs. -/
set_option allowUnsafeReducibility true
attribute [semireducible] Rat.add Rat.mul Rat.sub Rat.ofScientific

namespace SingaTransit

/-- JavaScript's String.prototype.startsWith, modelled on the character list. -/
def strStartsWith (s pat : String) : Bool :=
  pat.data.isPrefixOf s.data

/-- JavaScript's String.prototype.endsWith, modelled on the character list. -/
def strEndsWith (s pat : String) : Bool :=
  pat.data.isSuffixOf s.data

/-- Whether pat occurs as a contiguous sublist of l. -/
def hasInfix (pat : List Char) : List Char → Bool
  | [] => pat.isEmpty
  | c :: t => pat.isPrefixOf (c :: t) || hasInfix pat t

/-- JavaScript's String.prototype.includes, modelled on the character list. -/
def strContains (s pat : String) : Bool :=
  hasInfix pat.data s.data

/-- src/utils/transportUtils.ts, getServiceType: classifies a service
identifier string into a transport mode string. -/
def getServiceType (service : String) : String :=
  if service = "WALK" then "WALK"
  else
    let mrtLines : List String := ["NSL", "EWL", "NEL", "CCL", "DTL", "TEL"]
    if mrtLines.any (fun line => strStartsWith service line) then "MRT"
    else
      let lrtLines : List String := ["BPLrt", "SKLrt", "PGLrt", "LRT"]
      if lrtLines.any (fun line => strContains service line) || strEndsWith service "LRT" then "LRT"
      else "BUS"

/-- The classifier exactly as the specification words it (§4.3): literal WALK,
then the MRT prefix test, then the LRT substring/suffix test, else BUS.
Stated with explicit disjunctions to compare against the source function. -/
def classifySpec (service : String) : String :=
  if service = "WALK" then "WALK"
  else if strStartsWith service "NSL" || strStartsWith service "EWL" ||
          strStartsWith service "NEL" || strStartsWith service "CCL" ||
          strStartsWith service "DTL" || strStartsWith service "TEL" then "MRT"
  else if strContains service "BPLrt" || strContains service "SKLrt" ||
          strContains service "PGLrt" || strContains service "LRT" ||
          strEndsWith service "LRT" then "LRT"
  else "BUS"

/-! ## src/utils/MinHeap.ts

A binary min-heap over (element, priority) pairs, backing array modelled as a
list. Duplicate entries are permitted; bubbleUp and bubbleDown follow the
source index arithmetic. -/

structure HeapNode where
  element : String
  priority : ℚ
deriving DecidableEq, Repr

namespace MinHeap

/-- Priority stored at index i, read only under an in-bounds guard. -/
def nodePri (h : List HeapNode) (i : ℕ) : ℚ :=
  match h.get? i with
  | some n => n.priority
  | none => 0

/-- Array destructuring swap of two in-bounds indices. -/
def hSwap (h : List HeapNode) (i j : ℕ) : List HeapNode :=
  match h.get? i, h.get? j with
  | some a, some b => (h.set i b).set j a
  | _, _ => h

/-- The bubbleUp while-loop with an explicit iteration budget. The index
strictly decreases at every iteration, so with a starting budget of the
starting index the budget only runs out when the index has reached 0, where
the loop exits anyway: the 0-budget clause coincides with the source. -/
def bubbleUpGo : ℕ → List HeapNode → ℕ → List HeapNode
  | 0, h, _ => h
  | fuel + 1, h, index =>
    if index = 0 then h
    else
      let parentIndex := (index - 1) / 2
      if nodePri h parentIndex ≤ nodePri h index then h
      else bubbleUpGo fuel (hSwap h parentIndex index) parentIndex

/-- MinHeap.bubbleUp: sift the node at index up while it beats its parent. -/
def bubbleUp (h : List HeapNode) (index : ℕ) : List HeapNode :=
  bubbleUpGo index h index

/-- MinHeap.push: append and sift up. -/
def push (h : List HeapNode) (element : String) (priority : ℚ) : List HeapNode :=
  bubbleUp (h ++ [⟨element, priority⟩]) h.length

/-- The bubbleDown while-loop with an explicit iteration budget. The source
computes smallest out of index, leftChild, rightChild and either stops
(smallest = index) or swaps and continues from smallest; the nested ifs
enumerate those cases. The index strictly increases and stays below the
length at every iteration, so a budget of the heap length only runs out once
every child index is out of bounds, where the loop exits anyway. -/
def bubbleDownGo : ℕ → List HeapNode → ℕ → List HeapNode
  | 0, h, _ => h
  | fuel + 1, h, index =>
    if 2 * index + 1 < h.length ∧ nodePri h (2 * index + 1) < nodePri h index then
      if 2 * index + 2 < h.length ∧ nodePri h (2 * index + 2) < nodePri h (2 * index + 1) then
        bubbleDownGo fuel (hSwap h index (2 * index + 2)) (2 * index + 2)
      else
        bubbleDownGo fuel (hSwap h index (2 * index + 1)) (2 * index + 1)
    else
      if 2 * index + 2 < h.length ∧ nodePri h (2 * index + 2) < nodePri h index then
        bubbleDownGo fuel (hSwap h index (2 * index + 2)) (2 * index + 2)
      else h

/-- MinHeap.bubbleDown: sift the node at index down towards its children. -/
def bubbleDown (h : List HeapNode) (index : ℕ) : List HeapNode :=
  bubbleDownGo h.length h index

/-- MinHeap.pop: remove and return the root; move the last node to the root
and sift it down when the heap stays non-empty. Returns the popped node and
the remaining heap. -/
def pop (h : List HeapNode) : Option (HeapNode × List HeapNode) :=
  match h with
  | [] => none
  | min :: rest' =>
    let last := (min :: rest').getLast (List.cons_ne_nil _ _)
    match (min :: rest').dropLast with
    | [] => some (min, [])
    | r :: rs => some (min, bubbleDown ((r :: rs).set 0 last) 0)

end MinHeap

/-! ## Shared JavaScript object and operator models -/

instance {ε α : Type} [DecidableEq ε] [DecidableEq α] : DecidableEq (Except ε α) := by
  intro a b
  cases a <;> cases b
  case error.error e1 e2 =>
    exact decidable_of_iff (e1 = e2) (by constructor <;> (intro h; first | rw [h] | injection h))
  case ok.ok a1 a2 =>
    exact decidable_of_iff (a1 = a2) (by constructor <;> (intro h; first | rw [h] | injection h))
  all_goals exact isFalse (by intro h; injection h)

/-- First-match lookup in an association list (JavaScript keyed read on an
insertion-ordered object). -/
def alistLookup {α : Type} (l : List (String × α)) (k : String) : Option α :=
  match l with
  | [] => none
  | (k', v) :: rest => if k' = k then some v else alistLookup rest k

/-- Keyed write on an insertion-ordered object: overwrite in place, or append
the new key at the end. -/
def alistSet {α : Type} (l : List (String × α)) (k : String) (v : α) :
    List (String × α) :=
  match l with
  | [] => [(k, v)]
  | (k', v') :: rest => if k' = k then (k, v) :: rest else (k', v') :: alistSet rest k v

/-- Keyed write on a function-backed map. -/
def mapSet {α : Type} (m : String → α) (k : String) (v : α) : String → α :=
  fun x => if x = k then v else m x

/-- alt < (distances[v] || Infinity): a missing entry and a stored 0 are both
treated as Infinity by the JavaScript || operator. -/
def ltFalsyInf (alt : ℚ) (d : Option ℚ) : Prop :=
  match d with
  | none => True
  | some x => if x = 0 then True else alt < x

instance (alt : ℚ) (d : Option ℚ) : Decidable (ltFalsyInf alt d) := by
  unfold ltFalsyInf
  cases d with
  | none => exact inferInstanceAs (Decidable True)
  | some x => exact inferInstanceAs (Decidable (if x = 0 then True else alt < x))

/-- priority > (distances[u] ?? Infinity): ?? only treats a missing entry as
Infinity. -/
def staleEntry (p : ℚ) (d : Option ℚ) : Prop :=
  match d with
  | none => False
  | some x => p > x

instance (p : ℚ) (d : Option ℚ) : Decidable (staleEntry p d) := by
  unfold staleEntry
  cases d with
  | none => exact inferInstanceAs (Decidable False)
  | some x => exact inferInstanceAs (Decidable (p > x))

/-! ## The pathfinder worker (current variant, with transferPenalty and
excludedModes)

Embeds findPath, pathsAreEqual and the CALCULATE message handler of the
worker that routes user requests. The graph is an ordered association list
(Object.entries enumeration order); distances, previous and visited are
keyed maps modelled as functions. The worker-level null check of the graph
handle (Graph not loaded / Graph not ready) concerns the one-shot startup
load and is outside the model: the graph is passed as a value. -/

namespace Pathfinder

structure Edge where
  service : String
  direction : ℤ
  distance : ℚ
  weight : ℚ
deriving DecidableEq, Repr

/-- Adjacency of one node: neighbour id to the parallel edges towards it. -/
abbrev AdjList := List (String × List Edge)

abbrev Graph := List (String × AdjList)

/-- PathStep; the source fields from/to are rendered fromId/toId (from is a
reserved word in Lean). -/
structure PathStep where
  fromId : String
  toId : String
  service : String
  direction : ℤ
  weight : ℚ
deriving DecidableEq, Repr

structure PreviousStep where
  node : String
  edge : Edge
deriving DecidableEq, Repr

structure PathResult where
  path : List PathStep
  totalDuration : ℚ
deriving DecidableEq, Repr

/-- The error strings findPath can return, as an inductive; message gives the
exact source text. -/
inductive FPError where
  | startNotFound (node : String)
  | endNotFound (node : String)
  | timedOut
  | noPathFound
  | reconstructionFailed
deriving DecidableEq, Repr

def FPError.message : FPError → String
  | .startNotFound n => "Start Node " ++ n ++ " not found"
  | .endNotFound n => "End Node " ++ n ++ " not found"
  | .timedOut => "Computation timed out"
  | .noPathFound => "No path found"
  | .reconstructionFailed => "Path reconstruction error"

def BASE_TRANSFER_COST : ℚ := 300
def DIRECT_ROUTE_PENALTY : ℚ := 600
def WALK_COST_MULTIPLIER : ℚ := 2

def MAX_ITERATIONS : ℕ := 100000

/-- One iteration of the parallel-edge loop: skip excluded non-WALK modes,
double the weight of WALK-service edges, charge 300 + transferPenalty when a
truthy (i.e. non-empty) incoming service differs from the edge service, and
keep the first edge of strictly least cost. -/
def bestEdgeStep (incomingService : Option String) (transferPenalty : ℚ)
    (excludedModes : List String) (best : Option (Edge × ℚ)) (edge : Edge) :
    Option (Edge × ℚ) :=
  let mode := getServiceType edge.service
  if mode ≠ "WALK" ∧ mode ∈ excludedModes then best
  else
    let weight := if edge.service = "WALK" then edge.weight * WALK_COST_MULTIPLIER
      else edge.weight
    let penalty :=
      match incomingService with
      | some s => if s ≠ "" ∧ s ≠ edge.service then BASE_TRANSFER_COST + transferPenalty
        else 0
      | none => 0
    let currentEdgeCost := weight + penalty
    match best with
    | none => some (edge, currentEdgeCost)
    | some (_, bestCost) =>
      if currentEdgeCost < bestCost then some (edge, currentEdgeCost) else best

/-- The parallel-edge loop over all edges of one neighbour entry, starting
from bestEdge = null, bestCost = Infinity. -/
def bestEdgeFor (edges : List Edge) (incomingService : Option String)
    (transferPenalty : ℚ) (excludedModes : List String) : Option (Edge × ℚ) :=
  edges.foldl (bestEdgeStep incomingService transferPenalty excludedModes) none

structure SearchState where
  distances : String → Option ℚ
  previous : String → Option PreviousStep
  visited : String → Bool
  heap : List HeapNode

/-- Relaxation of one neighbour entry (v, edges) from u at popped priority. -/
def relaxOne (transferPenalty : ℚ) (excludedModes : List String) (u : String)
    (uPriority : ℚ) (incomingService : Option String) (st : SearchState)
    (entry : String × List Edge) : SearchState :=
  let v := entry.1
  let edges := entry.2
  if edges = [] then st
  else
    match bestEdgeFor edges incomingService transferPenalty excludedModes with
    | none => st
    | some (bestEdge, bestCost) =>
      let alt := uPriority + bestCost
      if ltFalsyInf alt (st.distances v) then
        { st with
          distances := mapSet st.distances v (some alt)
          previous := mapSet st.previous v (some ⟨u, bestEdge⟩)
          heap := MinHeap.push st.heap v alt }
      else st

/-- The Dijkstra loop; the fuel counts the iterations still allowed before the
MAX_ITERATIONS cap fires, so the loop starts with fuel MAX_ITERATIONS and the
cap returns the timeout error. An empty heap exits normally. -/
def runLoop (g : Graph) (endNode : String) (transferPenalty : ℚ)
    (excludedModes : List String) : ℕ → SearchState → Except FPError SearchState
  | 0, st =>
    match MinHeap.pop st.heap with
    | none => .ok st
    | some _ => .error .timedOut
  | fuel + 1, st =>
    match MinHeap.pop st.heap with
    | none => .ok st
    | some (current, heap') =>
        let st := { st with heap := heap' }
        let u := current.element
        if staleEntry current.priority (st.distances u) then
          runLoop g endNode transferPenalty excludedModes fuel st
        else if u = endNode then .ok st
        else if st.visited u then
          runLoop g endNode transferPenalty excludedModes fuel st
        else
          let st := { st with visited := fun x => if x = u then true else st.visited x }
          match alistLookup g u with
          | none => runLoop g endNode transferPenalty excludedModes fuel st
          | some neighbors =>
            let incomingService := (st.previous u).map (fun s => s.edge.service)
            let st := neighbors.foldl
              (relaxOne transferPenalty excludedModes u current.priority incomingService) st
            runLoop g endNode transferPenalty excludedModes fuel st

/-- Path reconstruction: walk previous back from endNode, counting steps
against the 2000-step cap (the fuel is the number of loop entries still
allowed; entry 2001 raises the reconstruction error as in the source). -/
def recon (previous : String → Option PreviousStep) (startNode : String) :
    ℕ → String → List PathStep → ℚ → Except FPError PathResult
  | 0, _, _, _ => .error .reconstructionFailed
  | fuel + 1, curr, path, trueDuration =>
    if curr = startNode then .ok ⟨path, trueDuration⟩
    else
      match previous curr with
      | none => .ok ⟨path, trueDuration⟩
      | some step =>
        recon previous startNode fuel
          step.node
          (⟨step.node, curr, step.edge.service, step.edge.direction, step.edge.weight⟩ :: path)
          (trueDuration + step.edge.weight)

def initState (startNode : String) : SearchState :=
  { distances := mapSet (fun _ => none) startNode (some 0)
    previous := fun _ => none
    visited := fun _ => false
    heap := MinHeap.push [] startNode 0 }

/-- findPath of the current worker: validate the endpoints, run the loop, and
reconstruct. totalDuration accumulates raw edge weights only. -/
def findPath (g : Graph) (startNode endNode : String) (transferPenalty : ℚ)
    (excludedModes : List String) : Except FPError PathResult :=
  if (alistLookup g startNode).isNone then .error (.startNotFound startNode)
  else if (alistLookup g endNode).isNone then .error (.endNotFound endNode)
  else
    match runLoop g endNode transferPenalty excludedModes MAX_ITERATIONS
      (initState startNode) with
    | .error e => .error e
    | .ok st =>
      if startNode ≠ endNode ∧ st.previous endNode = none then .error .noPathFound
      else recon st.previous startNode 2000 endNode [] 0

/-- The observable the NoPathFound test reads: the previous entry of the
destination at loop exit (none of the outer Option when the loop timed out). -/
def prevOfRun (g : Graph) (startNode endNode : String) (transferPenalty : ℚ)
    (excludedModes : List String) : Option (Option PreviousStep) :=
  match runLoop g endNode transferPenalty excludedModes MAX_ITERATIONS
    (initState startNode) with
  | .ok st => some (st.previous endNode)
  | .error _ => none

/-- pathsAreEqual: same length and pairwise equal (from, to, service);
direction and weight are not compared. -/
def pathsAreEqual (pathA pathB : List PathStep) : Bool :=
  if pathA.length ≠ pathB.length then false
  else (pathA.zip pathB).all
    (fun p => p.1.fromId == p.2.fromId && p.1.toId == p.2.toId && p.1.service == p.2.service)

structure RouteOption where
  id : String
  label : String
  path : List PathStep
  totalDuration : ℚ
deriving DecidableEq, Repr

/-- The result field of the RESULT message posted back for a CALCULATE
request. -/
inductive CalcResult where
  | routes (routes : List RouteOption)
  | resultError (error : FPError)
deriving DecidableEq, Repr

/-- The CALCULATE branch of self.onmessage: fastest with penalty 0, then the
direct candidate with penalty 600, appended only when it succeeds and differs
structurally from fastest. -/
def handleCalculate (g : Graph) (start stop : String)
    (excludedModes : List String) : CalcResult :=
  match findPath g start stop 0 excludedModes with
  | .error e => .resultError e
  | .ok fastestResult =>
    let routes : List RouteOption :=
      [⟨"fastest", "Fastest", fastestResult.path, fastestResult.totalDuration⟩]
    match findPath g start stop DIRECT_ROUTE_PENALTY excludedModes with
    | .error _ => .routes routes
    | .ok directResult =>
      if pathsAreEqual fastestResult.path directResult.path then .routes routes
      else .routes (routes ++
        [⟨"direct", "Less Transfers", directResult.path, directResult.totalDuration⟩])

/-! Specification-side cost functions (claim C2's wording), to be compared
with the loop in bestEdgeStep. -/

/-- The effective weight w of the claim: e.weight × 2.0 for a WALK service,
e.weight otherwise. -/
def specEffectiveWeight (e : Edge) : ℚ :=
  if e.service = "WALK" then e.weight * 2 else e.weight

/-- The transfer penalty p exactly as claim C2 states it: 0 when there is no
incoming edge or the incoming service equals the edge service, else
300 + transferPenalty. -/
def specPenaltyClaimed (incomingService : Option String) (transferPenalty : ℚ)
    (e : Edge) : ℚ :=
  match incomingService with
  | none => 0
  | some s => if s = e.service then 0 else 300 + transferPenalty

/-- The transfer penalty of the amended claim: additionally no penalty when
the incoming service is the empty string, which the source treats as falsy. -/
def specPenalty (incomingService : Option String) (transferPenalty : ℚ)
    (e : Edge) : ℚ :=
  match incomingService with
  | none => 0
  | some s => if s = "" ∨ s = e.service then 0 else 300 + transferPenalty

/-- Candidate cost c = w + p of the amended claim. -/
def specCost (incomingService : Option String) (transferPenalty : ℚ) (e : Edge) : ℚ :=
  specEffectiveWeight e + specPenalty incomingService transferPenalty e

/-- An edge the mode filter lets through: WALK-classified, or of a mode not in
the exclusion set. -/
def specAdmissible (excludedModes : List String) (e : Edge) : Prop :=
  getServiceType e.service = "WALK" ∨ getServiceType e.service ∉ excludedModes

instance (excludedModes : List String) (e : Edge) :
    Decidable (specAdmissible excludedModes e) := by
  unfold specAdmissible
  infer_instance

/-- Invariant of the search: every recorded previous entry holds an edge the
mode filter admits. -/
def PrevInv (excludedModes : List String) (st : SearchState) : Prop :=
  ∀ v ps, st.previous v = some ps → specAdmissible excludedModes ps.edge

end Pathfinder

/-! ## src/utils/routeFormatter.ts

formatRoute collapses a step sequence into trip legs keyed by (type, service).
The while-loop carrying currentLeg is rendered as the tail recursion formatGo;
the accumulator of emitted legs becomes the list it returns before the
current leg. -/

namespace RouteFormatter

/-- One stop-metadata record (stops_metadata.json entry). -/
structure StopMeta where
  name : String
  road : String
  lat : ℚ
  lng : ℚ
deriving DecidableEq, Repr

abbrev Metadata := String → Option StopMeta

/-- RouteStep of routeFormatter.ts; fields from/to rendered fromId/toId. -/
structure RouteStep where
  fromId : String
  toId : String
  type : String
  service : String
  weight : ℚ
deriving DecidableEq, Repr

structure TripLeg where
  type : String
  service : String
  startStopId : String
  startStopName : String
  endStopId : String
  endStopName : String
  stopCount : ℕ
  duration : ℚ
deriving DecidableEq, Repr

/-- Sentinel-aware name resolution: metadata[id]?.name || id, where the
JavaScript || also falls back on an empty stored name. -/
def getName (metadata : Metadata) (id : String) : String :=
  if id = "Current Location" then "Current Location"
  else if id = "Destination" then "Destination"
  else
    match metadata id with
    | some m => if m.name = "" then id else m.name
    | none => id

/-- The leg opened from a single step. -/
def initLeg (md : Metadata) (s : RouteStep) : TripLeg :=
  ⟨s.type, s.service, s.fromId, getName md s.fromId, s.toId, getName md s.toId, 1, s.weight⟩

/-- Extending the current leg by one same-keyed step. -/
def extendLeg (md : Metadata) (cur : TripLeg) (s : RouteStep) : TripLeg :=
  { cur with
    endStopId := s.toId
    endStopName := getName md s.toId
    stopCount := cur.stopCount + 1
    duration := cur.duration + s.weight }

/-- The formatRoute loop from step 1 on: extend the current leg when both
service and type agree, else emit it and open a new one. -/
def formatGo (md : Metadata) (cur : TripLeg) : List RouteStep → List TripLeg
  | [] => [cur]
  | s :: rest =>
    if s.service = cur.service ∧ s.type = cur.type then
      formatGo md (extendLeg md cur s) rest
    else cur :: formatGo md (initLeg md s) rest

def formatRoute (path : List RouteStep) (md : Metadata) : List TripLeg :=
  match path with
  | [] => []
  | p0 :: rest => formatGo md (initLeg md p0) rest

/-- The merge key of a step: both type and service. -/
def stepKey (s : RouteStep) : String × String := (s.type, s.service)

/-- Splitting into maximal same-key runs, carrying the open run r of key k. -/
def chunkGo (k : String × String) (r : List RouteStep) :
    List RouteStep → List (List RouteStep)
  | [] => [r]
  | s :: rest =>
    if stepKey s = k then chunkGo k (r ++ [s]) rest
    else r :: chunkGo (stepKey s) [s] rest

/-- The maximal same-key runs of a step sequence. -/
def chunkRuns : List RouteStep → List (List RouteStep)
  | [] => []
  | s :: rest => chunkGo (stepKey s) [s] rest

/-- The leg a whole run compacts to. -/
def mkLeg (md : Metadata) (r : List RouteStep) : TripLeg :=
  match r with
  | [] => ⟨"", "", "", "", "", "", 0, 0⟩
  | h :: t =>
    let last := ((h :: t).getLast?).getD h
    ⟨h.type, h.service, h.fromId, getName md h.fromId, last.toId, getName md last.toId,
      (h :: t).length, ((h :: t).map (fun s => s.weight)).sum⟩

end RouteFormatter

/-! ## src/utils/routeProcessor.ts, generateSegments

Converts a worker path into polyline segments; a missing metadata entry for a
step's to-node skips the step. -/

namespace RouteProcessor

structure RouteSegment where
  type : String
  mode : String
  service : String
  positions : List (ℚ × ℚ)
deriving DecidableEq, Repr

/-- The loop state: current service, its type, the open polyline, and the
segments already pushed. -/
structure SegState where
  currentService : String
  currentType : String
  currentPoints : List (ℚ × ℚ)
  segs : List RouteSegment
deriving Repr

/-- The body of the generateSegments loop for one step. -/
def processStep (md : RouteFormatter.Metadata) (st : SegState)
    (step : Pathfinder.PathStep) : SegState :=
  match md step.toId with
  | none => st
  | some nextNode =>
    let nextPoint : ℚ × ℚ := (nextNode.lat, nextNode.lng)
    if step.service ≠ st.currentService then
      let segs' :=
        if st.currentPoints ≠ [] then
          st.segs ++ [⟨st.currentType, st.currentType, st.currentService, st.currentPoints⟩]
        else st.segs
      let startPoint :=
        match md step.fromId with
        | some startNode => (startNode.lat, startNode.lng)
        | none => nextPoint
      ⟨step.service, getServiceType step.service, [startPoint, nextPoint], segs'⟩
    else { st with currentPoints := st.currentPoints ++ [nextPoint] }

def generateSegments (path : List Pathfinder.PathStep)
    (md : RouteFormatter.Metadata) : List RouteSegment :=
  match path with
  | [] => []
  | p0 :: _ =>
    match md p0.fromId with
    | none => []
    | some firstNode =>
      let final := path.foldl (processStep md)
        ⟨p0.service, getServiceType p0.service, [(firstNode.lat, firstNode.lng)], []⟩
      final.segs ++
        (if final.currentPoints ≠ [] then
          [⟨final.currentType, final.currentType, final.currentService,
            final.currentPoints⟩]
        else [])

/-- The visual-continuity invariant: each segment starts at the last position
of its predecessor. -/
def segContinuous : List RouteSegment → Bool
  | [] => true
  | [_] => true
  | a :: b :: rest =>
    if b.positions.head? = a.positions.getLast? then segContinuous (b :: rest)
    else false

/-- The steps chain starting at the given node. -/
def chainFromB (node : String) : List Pathfinder.PathStep → Bool
  | [] => true
  | s :: rest => (s.fromId == node) && chainFromB s.toId rest

/-- A candidate path chains: consecutive steps link up. -/
def chainB (path : List Pathfinder.PathStep) : Bool :=
  match path with
  | [] => true
  | p :: _ => chainFromB p.fromId path

/-- Every node the path touches has a metadata entry. -/
def coveredB (md : RouteFormatter.Metadata) (path : List Pathfinder.PathStep) : Bool :=
  path.all (fun s => (md s.fromId).isSome && (md s.toId).isSome)

end RouteProcessor

/-! ## src/utils/routeUtils.ts, filterAndSortRoutes

Removes candidates containing excluded segments and sorts by the selected
criterion. JavaScript's Array.prototype.sort is stable; sortRoutes models it
as a stable insertion sort driven by the numeric comparator. -/

namespace RouteUtils

/-- RouteSegment of the types/transport module: mode is one of the
TransportMode strings (BUS, MRT, LRT, TRAIN, TRAM, WALK). -/
structure RouteSegment where
  mode : String
  service : String
  duration : Option ℚ
  distance : Option ℚ
  positions : List (ℚ × ℚ)
deriving DecidableEq, Repr

structure Route where
  id : String
  segments : List RouteSegment
  totalDuration : ℚ
  totalDistance : ℚ
  numberOfTransfers : ℤ
  walkingDistance : ℚ
deriving DecidableEq, Repr

/-- The switch in the sort comparator, as the signed number it returns. -/
def routeCmp (sortOption : String) (a b : Route) : ℚ :=
  if sortOption = "LESS_TRANSFERS" then
    if a.numberOfTransfers ≠ b.numberOfTransfers then
      ((a.numberOfTransfers - b.numberOfTransfers : ℤ) : ℚ)
    else a.totalDuration - b.totalDuration
  else if sortOption = "LESS_WALKING" then
    if a.walkingDistance ≠ b.walkingDistance then a.walkingDistance - b.walkingDistance
    else a.totalDuration - b.totalDuration
  else a.totalDuration - b.totalDuration

/-- Insert r behind every earlier element not strictly after it (stability). -/
def insertSorted (cmp : Route → Route → ℚ) (r : Route) : List Route → List Route
  | [] => [r]
  | y :: ys => if cmp r y < 0 then r :: y :: ys else y :: insertSorted cmp r ys

/-- Stable sort by the comparator. -/
def sortRoutes (cmp : Route → Route → ℚ) (l : List Route) : List Route :=
  l.foldl (fun acc r => insertSorted cmp r acc) []

/-- filterAndSortRoutes: drop any route with a segment whose mode is not the
literal WALKING and lies in excludedModes, then sort. The WALKING literal is
the source's own; segment modes are the TransportMode strings, WALK included,
so the first test never fails. -/
def filterAndSortRoutes (routes : List Route) (excludedModes : List String)
    (sortOption : String) : List Route :=
  let filtered := routes.filter (fun route =>
    ! route.segments.any (fun segment =>
      (segment.mode != "WALKING") && excludedModes.contains segment.mode))
  sortRoutes (routeCmp sortOption) filtered

end RouteUtils

/-! ## src/workers/pathfinder.worker.ts, coordinate-endpoint variant

The legacy worker that injects the virtual __START__/__END__ nodes from
lat/lng endpoints. Its haversine getDist is transcendental, so the distance
metric is a parameter d of the embedding; at coincident coordinates the
haversine is exactly 0, which is all the concrete runs below exercise. The
graph is threaded through the search state because the source aliases
neighbors = graph[u] and pushes the virtual end edge into it. -/

namespace CoordWorker

structure EdgeT where
  type : String
  service : String
  direction : Option ℤ
  distance : ℚ
  weight : ℚ
deriving DecidableEq, Repr

abbrev AdjW := List (String × List EdgeT)

abbrev GraphW := List (String × AdjW)

structure MetaW where
  lat : ℚ
  lng : ℚ
  name : String
deriving DecidableEq, Repr

abbrev MetadataW := List (String × MetaW)

structure PreviousStepC where
  node : String
  edge : EdgeT
deriving DecidableEq, Repr

structure PathStepC where
  fromId : String
  toId : String
  type : String
  service : String
  weight : ℚ
deriving DecidableEq, Repr

/-- The error strings of this variant, as an inductive. -/
inductive CErr where
  | notLoaded
  | noNearStart
  | noNearEnd
  | timedOut
  | noPathFound
deriving DecidableEq, Repr

def CErr.message : CErr → String
  | .notLoaded => "Graph not loaded yet"
  | .noNearStart => "No transport nodes near start location"
  | .noNearEnd => "No transport nodes near destination"
  | .timedOut => "Timeout"
  | .noPathFound => "No path found"

/-- Stable ascending insertion by distance (results.sort((a, b) =>
a.dist - b.dist), stable). -/
def insertByDist (x : String × ℚ) : List (String × ℚ) → List (String × ℚ)
  | [] => [x]
  | y :: ys => if x.2 < y.2 then x :: y :: ys else y :: insertByDist x ys

def sortByDist (l : List (String × ℚ)) : List (String × ℚ) :=
  l.foldl (fun acc x => insertByDist x acc) []

/-- findNearestNodes over the metadata entries in insertion order: keep stops
within maxDistKm, sort ascending by distance, take the top 5. -/
def findNearestNodes (d : (ℚ × ℚ) → (ℚ × ℚ) → ℚ) (metadata : MetadataW)
    (coords : ℚ × ℚ) (maxDistKm : ℚ) : List (String × ℚ) :=
  let results := metadata.filterMap (fun p =>
    let dist := d coords (p.2.lat, p.2.lng)
    if dist ≤ maxDistKm then some (p.1, dist) else none)
  (sortByDist results).take 5

/-- The search state; g is the graph handle this variant mutates. -/
structure SearchStateC where
  g : GraphW
  distances : String → Option ℚ
  previous : String → Option PreviousStepC
  visited : String → Bool
  heap : List HeapNode

/-- edges.reduce keeping the first strictly lighter edge. -/
def bestEdgeByWeight : List EdgeT → Option EdgeT
  | [] => none
  | h :: t => some (t.foldl (fun p c => if p.weight < c.weight then p else c) h)

/-- One relaxation of this variant: minimum-weight parallel edge, 300-second
penalty when service or type changes against previous[u] (read inside the
loop), and the falsy distance test. -/
def relaxOneC (u : String) (currentDist : ℚ) (st : SearchStateC)
    (entry : String × List EdgeT) : SearchStateC :=
  if entry.2 = [] then st
  else
    match bestEdgeByWeight entry.2 with
    | none => st
    | some bestEdge =>
      let penalty : ℚ :=
        match st.previous u with
        | some prevStep =>
          if prevStep.edge.service ≠ bestEdge.service ∨
              prevStep.edge.type ≠ bestEdge.type then 300
          else 0
        | none => 0
      let alt := currentDist + bestEdge.weight + penalty
      if ltFalsyInf alt (st.distances entry.1) then
        { st with
          distances := mapSet st.distances entry.1 (some alt)
          previous := mapSet st.previous entry.1 (some ⟨u, bestEdge⟩)
          heap := MinHeap.push st.heap entry.1 alt }
      else st

/-- Neighbour acquisition: fresh virtual edges from __START__, otherwise the
graph adjacency aliased and, for a node near the destination, mutated in
place by pushing the virtual end edge under the __END__ key. Returns the
neighbours iterated and the (possibly mutated) graph. -/
def expandNeighbors (startNeighbors endNeighbors : List (String × ℚ))
    (st : SearchStateC) (u : String) : (List (String × List EdgeT)) × GraphW :=
  if u = "__START__" then
    (startNeighbors.map (fun p => (p.1, [⟨"WALK", "Start", none, p.2, p.2 * 720⟩])),
      st.g)
  else
    match alistLookup st.g u with
    | none => ([], st.g)
    | some adj =>
      match endNeighbors.find? (fun p => p.1 == u) with
      | none => (adj, st.g)
      | some p =>
        let vedge : EdgeT := ⟨"WALK", "End", none, p.2, p.2 * 720⟩
        let adj' := alistSet adj "__END__" (((alistLookup adj "__END__").getD []) ++ [vedge])
        (adj', alistSet st.g u adj')

/-- The Dijkstra loop of this variant (cap 50000); returns the final state
(with its graph) and an optional error. -/
def runLoopC (startNeighbors endNeighbors : List (String × ℚ)) :
    ℕ → SearchStateC → SearchStateC × Option CErr
  | 0, st =>
    (match MinHeap.pop st.heap with
     | none => (st, none)
     | some _ => (st, some .timedOut))
  | fuel + 1, st =>
    match MinHeap.pop st.heap with
    | none => (st, none)
    | some (current, heap') =>
      let st := { st with heap := heap' }
      let u := current.element
      if staleEntry current.priority (st.distances u) then
        runLoopC startNeighbors endNeighbors fuel st
      else if u = "__END__" then (st, none)
      else if st.visited u then
        runLoopC startNeighbors endNeighbors fuel st
      else
        let st := { st with visited := fun x => if x = u then true else st.visited x }
        let ng := expandNeighbors startNeighbors endNeighbors st u
        let st := { st with g := ng.2 }
        let st := ng.1.foldl (relaxOneC u current.priority) st
        runLoopC startNeighbors endNeighbors fuel st

/-- Reconstruction of this variant: no step cap in the source; the budget of
50000 covers every chain the search can record (one previous entry per heap
push, capped by the iteration bound), and where the source would loop forever
on a corrupted chain the model returns the partial path. -/
def reconC (previous : String → Option PreviousStepC) :
    ℕ → String → List PathStepC → List PathStepC
  | 0, _, path => path
  | fuel + 1, curr, path =>
    if curr = "__START__" then path
    else
      match previous curr with
      | none => path
      | some step =>
        reconC previous fuel step.node
          (⟨if step.node = "__START__" then "Current Location" else step.node,
            if curr = "__END__" then "Destination" else curr,
            step.edge.type, step.edge.service, step.edge.weight⟩ :: path)

/-- findPath of the coordinate variant. Returns the result together with the
graph as it stands after the call, so the frame effect is observable. The
reported totalDuration is distances[__END__], the penalised scoring cost. -/
def findPathCoord (d : (ℚ × ℚ) → (ℚ × ℚ) → ℚ) (g0 : GraphW)
    (metadata : MetadataW) (start stop : ℚ × ℚ) :
    (Except CErr (List PathStepC × ℚ)) × GraphW :=
  let startNeighbors := findNearestNodes d metadata start 0.8
  let endNeighbors := findNearestNodes d metadata stop 0.8
  if startNeighbors = [] then (.error .noNearStart, g0)
  else if endNeighbors = [] then (.error .noNearEnd, g0)
  else
    let st0 : SearchStateC :=
      { g := g0
        distances := mapSet (fun _ => none) "__START__" (some 0)
        previous := fun _ => none
        visited := fun _ => false
        heap := MinHeap.push [] "__START__" 0 }
    let out := runLoopC startNeighbors endNeighbors 50000 st0
    match out.2 with
    | some e => (.error e, out.1.g)
    | none =>
      match out.1.distances "__END__" with
      | none => (.error .noPathFound, out.1.g)
      | some total => (.ok (reconC out.1.previous 50000 "__END__" [], total), out.1.g)

end CoordWorker

/-! ## Concrete fixtures used by witnesses and counterexamples -/

namespace Fixtures

open Pathfinder

/-- Nodes A, B, C; services 1 (A to B), 2 (B to C), 3 (A to C direct). With no
penalty the two-leg route wins; with the direct-route penalty the single-leg
route wins. -/
def gAlt : Graph :=
  [("A", [("B", [⟨"1", 0, 1, 100⟩]), ("C", [⟨"3", 0, 1, 600⟩])]),
   ("B", [("C", [⟨"2", 0, 1, 100⟩])]),
   ("C", [])]

/-- One MRT edge from A to B. -/
def gMrt : Graph := [("A", [("B", [⟨"NSL1", 0, 1, 60⟩])]), ("B", [])]

/-- A single isolated node. -/
def gSelf : Graph := [("A", [])]

/-- One WALK edge from A to B. -/
def gWalk : Graph := [("A", [("B", [⟨"WALK", 0, 1, 100⟩])]), ("B", [])]

/-- Two isolated nodes with no connecting edge. -/
def gTwo : Graph := [("A", []), ("B", [])]

/-- Stop metadata for nodes A, B, C at distinct coordinates. -/
def mdABC : RouteFormatter.Metadata := fun id =>
  if id = "A" then some ⟨"Stop A", "Road A", 0, 0⟩
  else if id = "B" then some ⟨"Stop B", "Road B", 1, 1⟩
  else if id = "C" then some ⟨"Stop C", "Road C", 2, 2⟩
  else none

/-- Stop metadata missing the interior node B. -/
def mdHole : RouteFormatter.Metadata := fun id =>
  if id = "A" then some ⟨"Stop A", "Road A", 0, 0⟩
  else if id = "C" then some ⟨"Stop C", "Road C", 1, 1⟩
  else none

/-- A chained two-service worker path A to B to C. -/
def p2 : List Pathfinder.PathStep :=
  [⟨"A", "B", "X", 0, 10⟩, ⟨"B", "C", "Y", 0, 20⟩]

/-- A three-step formatter path: two steps of bus 10, one of bus 20. -/
def fmt3 : List RouteFormatter.RouteStep :=
  [⟨"A", "B", "BUS", "10", 60⟩, ⟨"B", "C", "BUS", "10", 120⟩, ⟨"C", "D", "BUS", "20", 90⟩]

/-- A candidate route consisting of a single WALK segment. -/
def walkRoute : RouteUtils.Route :=
  ⟨"w", [⟨"WALK", "WALK", none, none, []⟩], 600, 500, 0, 500⟩

/-- The zero metric: the haversine getDist of the source at coincident
coordinates (sin 0 = 0 gives a = 0, c = 0, R times c = 0), which is the only
distance the coordinate fixture exercises since all its stops share the query
point. -/
def dZero : (ℚ × ℚ) → (ℚ × ℚ) → ℚ := fun _ _ => 0

/-- A two-node coordinate-worker graph: one bus edge from A to B. -/
def g8 : CoordWorker.GraphW :=
  [("A", [("B", [⟨"BUS", "10", none, 1, 60⟩])]), ("B", [])]

/-- Metadata placing both stops at the query coordinates (0, 0). -/
def md8 : CoordWorker.MetadataW :=
  [("A", ⟨0, 0, "Stop A"⟩), ("B", ⟨0, 0, "Stop B"⟩)]

end Fixtures

/-! ## Theorems -/

/-- C9: the service classifier is the total function described by the spec:
literal WALK maps to WALK; otherwise an NSL/EWL/NEL/CCL/DTL/TEL prefix maps to
MRT; otherwise a BPLrt/SKLrt/PGLrt/LRT substring or an LRT suffix maps to LRT;
everything else maps to BUS, with the MRT prefix test applied before the LRT
substring test. -/
theorem service_classifier_c9 : ∀ service, getServiceType service = classifySpec service := by
  intro service
  simp only [getServiceType, classifySpec, List.any_cons, List.any_nil, Bool.or_false,
    Bool.or_assoc]

namespace Pathfinder

/-- bestEdgeStep computes exactly the spec-side cost and filter. -/
theorem bestEdgeStep_eq (inc : Option String) (tp : ℚ) (excl : List String)
    (best : Option (Edge × ℚ)) (e : Edge) :
    bestEdgeStep inc tp excl best e =
      if specAdmissible excl e then
        match best with
        | none => some (e, specCost inc tp e)
        | some (_, bestCost) =>
          if specCost inc tp e < bestCost then some (e, specCost inc tp e) else best
      else best := by
  unfold bestEdgeStep specAdmissible specCost specEffectiveWeight specPenalty
  unfold WALK_COST_MULTIPLIER BASE_TRANSFER_COST
  rcases inc with _ | s
  · by_cases hw : getServiceType e.service = "WALK" <;>
      by_cases hm : getServiceType e.service ∈ excl <;>
        simp [hw, hm]
  · by_cases hw : getServiceType e.service = "WALK" <;>
      by_cases hm : getServiceType e.service ∈ excl <;>
        by_cases he : s = "" <;> by_cases hs : s = e.service <;>
          simp [hw, hm, he, hs]

/-- bestEdgeStep skips an inadmissible edge. -/
theorem bestEdgeStep_skip (inc : Option String) (tp : ℚ) (excl : List String)
    (best : Option (Edge × ℚ)) (e : Edge) (ha : ¬ specAdmissible excl e) :
    bestEdgeStep inc tp excl best e = best := by
  rw [bestEdgeStep_eq, if_neg ha]

/-- bestEdgeStep adopts an admissible edge when no best is held yet. -/
theorem bestEdgeStep_none (inc : Option String) (tp : ℚ) (excl : List String)
    (e : Edge) (ha : specAdmissible excl e) :
    bestEdgeStep inc tp excl none e = some (e, specCost inc tp e) := by
  rw [bestEdgeStep_eq, if_pos ha]

/-- bestEdgeStep replaces the held best by a strictly cheaper admissible edge. -/
theorem bestEdgeStep_lt (inc : Option String) (tp : ℚ) (excl : List String)
    (b : Edge) (bc : ℚ) (e : Edge) (ha : specAdmissible excl e)
    (hlt : specCost inc tp e < bc) :
    bestEdgeStep inc tp excl (some (b, bc)) e = some (e, specCost inc tp e) := by
  rw [bestEdgeStep_eq, if_pos ha]
  simp only [hlt, if_true]

/-- bestEdgeStep keeps the held best against a not-cheaper admissible edge. -/
theorem bestEdgeStep_ge (inc : Option String) (tp : ℚ) (excl : List String)
    (b : Edge) (bc : ℚ) (e : Edge) (ha : specAdmissible excl e)
    (hge : ¬ specCost inc tp e < bc) :
    bestEdgeStep inc tp excl (some (b, bc)) e = some (b, bc) := by
  rw [bestEdgeStep_eq, if_pos ha]
  simp only [hge, if_false]

/-- The fold never worsens a present best cost. -/
theorem bestEdgeFold_mono (inc : Option String) (tp : ℚ) (excl : List String) :
    ∀ (edges : List Edge) (b : Edge) (bc : ℚ) (e : Edge) (c : ℚ),
      edges.foldl (bestEdgeStep inc tp excl) (some (b, bc)) = some (e, c) → c ≤ bc := by
  intro edges
  induction edges with
  | nil =>
    intro b bc e c h
    simp only [List.foldl_nil, Option.some.injEq] at h
    exact le_of_eq (Prod.mk.inj h).2.symm
  | cons e0 rest ih =>
    intro b bc e c h
    rw [List.foldl_cons] at h
    by_cases ha : specAdmissible excl e0
    · by_cases hlt : specCost inc tp e0 < bc
      · rw [bestEdgeStep_lt inc tp excl b bc e0 ha hlt] at h
        exact le_of_lt (lt_of_le_of_lt (ih _ _ _ _ h) hlt)
      · rw [bestEdgeStep_ge inc tp excl b bc e0 ha hlt] at h
        exact ih _ _ _ _ h
    · rw [bestEdgeStep_skip inc tp excl _ e0 ha] at h
      exact ih _ _ _ _ h

/-- Soundness of the fold: a produced pair is the initial best or an
admissible listed edge carrying its spec cost. -/
theorem bestEdgeFold_sound (inc : Option String) (tp : ℚ) (excl : List String) :
    ∀ (edges : List Edge) (best : Option (Edge × ℚ)) (e : Edge) (c : ℚ),
      edges.foldl (bestEdgeStep inc tp excl) best = some (e, c) →
      best = some (e, c) ∨ (e ∈ edges ∧ specAdmissible excl e ∧ c = specCost inc tp e) := by
  intro edges
  induction edges with
  | nil => intro best e c h; simp only [List.foldl_nil] at h; exact Or.inl h
  | cons e0 rest ih =>
    intro best e c h
    rw [List.foldl_cons] at h
    by_cases ha : specAdmissible excl e0
    · rcases best with _ | ⟨b, bc⟩
      · rw [bestEdgeStep_none inc tp excl e0 ha] at h
        rcases ih _ _ _ h with h1 | h2
        · injection h1 with h1
          obtain ⟨rfl, rfl⟩ := Prod.mk.inj h1.symm
          exact Or.inr ⟨List.mem_cons_self _ _, ha, rfl⟩
        · exact Or.inr ⟨List.mem_cons_of_mem _ h2.1, h2.2⟩
      · by_cases hlt : specCost inc tp e0 < bc
        · rw [bestEdgeStep_lt inc tp excl b bc e0 ha hlt] at h
          rcases ih _ _ _ h with h1 | h2
          · injection h1 with h1
            obtain ⟨rfl, rfl⟩ := Prod.mk.inj h1.symm
            exact Or.inr ⟨List.mem_cons_self _ _, ha, rfl⟩
          · exact Or.inr ⟨List.mem_cons_of_mem _ h2.1, h2.2⟩
        · rw [bestEdgeStep_ge inc tp excl b bc e0 ha hlt] at h
          rcases ih _ _ _ h with h1 | h2
          · exact Or.inl h1
          · exact Or.inr ⟨List.mem_cons_of_mem _ h2.1, h2.2⟩
    · rw [bestEdgeStep_skip inc tp excl _ e0 ha] at h
      rcases ih _ _ _ h with h1 | h2
      · exact Or.inl h1
      · exact Or.inr ⟨List.mem_cons_of_mem _ h2.1, h2.2⟩

/-- Minimality of the fold: the produced cost is at most the spec cost of
every admissible listed edge. -/
theorem bestEdgeFold_min (inc : Option String) (tp : ℚ) (excl : List String) :
    ∀ (edges : List Edge) (best : Option (Edge × ℚ)) (e : Edge) (c : ℚ),
      edges.foldl (bestEdgeStep inc tp excl) best = some (e, c) →
      ∀ x ∈ edges, specAdmissible excl x → c ≤ specCost inc tp x := by
  intro edges
  induction edges with
  | nil => intro best e c _ x hx; exact absurd hx (List.not_mem_nil x)
  | cons e0 rest ih =>
    intro best e c h x hx hax
    rw [List.foldl_cons] at h
    rcases List.mem_cons.mp hx with rfl | hxr
    · rcases best with _ | ⟨b, bc⟩
      · rw [bestEdgeStep_none inc tp excl x hax] at h
        exact bestEdgeFold_mono inc tp excl rest _ _ _ _ h
      · by_cases hlt : specCost inc tp x < bc
        · rw [bestEdgeStep_lt inc tp excl b bc x hax hlt] at h
          exact bestEdgeFold_mono inc tp excl rest _ _ _ _ h
        · rw [bestEdgeStep_ge inc tp excl b bc x hax hlt] at h
          exact le_trans (bestEdgeFold_mono inc tp excl rest _ _ _ _ h) (not_lt.mp hlt)
    · by_cases ha : specAdmissible excl e0
      · rcases best with _ | ⟨b, bc⟩
        · rw [bestEdgeStep_none inc tp excl e0 ha] at h
          exact ih _ _ _ h x hxr hax
        · by_cases hlt : specCost inc tp e0 < bc
          · rw [bestEdgeStep_lt inc tp excl b bc e0 ha hlt] at h
            exact ih _ _ _ h x hxr hax
          · rw [bestEdgeStep_ge inc tp excl b bc e0 ha hlt] at h
            exact ih _ _ _ h x hxr hax
      · rw [bestEdgeStep_skip inc tp excl _ e0 ha] at h
        exact ih _ _ _ h x hxr hax

/-- Completeness of the fold: a none result means no initial best and no
admissible listed edge. -/
theorem bestEdgeFold_some (inc : Option String) (tp : ℚ) (excl : List String) :
    ∀ (edges : List Edge) (best : Option (Edge × ℚ)),
      edges.foldl (bestEdgeStep inc tp excl) best = none →
      best = none ∧ ∀ x ∈ edges, ¬ specAdmissible excl x := by
  intro edges
  induction edges with
  | nil => intro best h; simpa using h
  | cons e0 rest ih =>
    intro best h
    rw [List.foldl_cons] at h
    by_cases ha : specAdmissible excl e0
    · rcases best with _ | ⟨b, bc⟩
      · rw [bestEdgeStep_none inc tp excl e0 ha] at h
        exact absurd (ih _ h).1 (by simp)
      · by_cases hlt : specCost inc tp e0 < bc
        · rw [bestEdgeStep_lt inc tp excl b bc e0 ha hlt] at h
          exact absurd (ih _ h).1 (by simp)
        · rw [bestEdgeStep_ge inc tp excl b bc e0 ha hlt] at h
          exact absurd (ih _ h).1 (by simp)
    · rw [bestEdgeStep_skip inc tp excl _ e0 ha] at h
      obtain ⟨h1, h2⟩ := ih _ h
      refine ⟨h1, fun x hx => ?_⟩
      rcases List.mem_cons.mp hx with rfl | hxr
      · exact ha
      · exact h2 x hxr

/-- C2, counterexample: when the recorded incoming edge carries the empty
service string, the source's truthiness test suppresses the transfer penalty,
so the edge is costed at its bare weight 100 instead of the
w + p = 100 + (300 + 0) the claim prescribes. -/
theorem edge_cost_empty_service_cex_c2 :
    bestEdgeFor [⟨"X", 0, 1, 100⟩] (some "") 0 [] = some (⟨"X", 0, 1, 100⟩, 100) ∧
    specEffectiveWeight ⟨"X", 0, 1, 100⟩ +
      specPenaltyClaimed (some "") 0 ⟨"X", 0, 1, 100⟩ = 400 ∧
    (100 : ℚ) ≠ 400 := by
  refine ⟨by decide, by decide, by decide⟩

/-- C2 (amended): during relaxation every parallel edge is costed as
c = w + p with w the walk-doubled effective weight and p the transfer penalty
— where p is additionally 0 when the recorded incoming service is the empty
string — and the pair bestEdgeFor selects is an admissible listed edge whose
cost is minimal among all admissible parallel edges; moreover bestEdgeFor
comes back empty only when no admissible parallel edge exists. -/
theorem pathfinder_edge_cost_c2 :
    (∀ (edges : List Edge) (inc : Option String) (tp : ℚ) (excl : List String)
       (e : Edge) (c : ℚ),
      bestEdgeFor edges inc tp excl = some (e, c) →
      e ∈ edges ∧ specAdmissible excl e ∧ c = specCost inc tp e ∧
        ∀ x ∈ edges, specAdmissible excl x → c ≤ specCost inc tp x) ∧
    (∀ (edges : List Edge) (inc : Option String) (tp : ℚ) (excl : List String),
      bestEdgeFor edges inc tp excl = none → ∀ x ∈ edges, ¬ specAdmissible excl x) := by
  constructor
  · intro edges inc tp excl e c h
    rcases bestEdgeFold_sound inc tp excl edges none e c h with h1 | h2
    · exact absurd h1 (by simp)
    · exact ⟨h2.1, h2.2.1, h2.2.2, bestEdgeFold_min inc tp excl edges none e c h⟩
  · intro edges inc tp excl h
    exact (bestEdgeFold_some inc tp excl edges none h).2

/-- C2, witness: among two parallel edges with incoming service 88, the
service-88 edge of weight 150 (cost 150) is selected over the lighter
service-77 edge of weight 100 (cost 400 after the transfer penalty), so the
selection minimises c, not the raw weight. -/
theorem pathfinder_edge_cost_c2_witness :
    (⟨"88", 0, 1, 150⟩ : Edge) ∈
        [(⟨"77", 0, 1, 100⟩ : Edge), ⟨"88", 0, 1, 150⟩] ∧
      (150 : ℚ) = specCost (some "88") 0 ⟨"88", 0, 1, 150⟩ ∧
      (150 : ℚ) ≤ specCost (some "88") 0 ⟨"77", 0, 1, 100⟩ := by
  have h := (pathfinder_edge_cost_c2.1
    [⟨"77", 0, 1, 100⟩, ⟨"88", 0, 1, 150⟩] (some "88") 0 []
    ⟨"88", 0, 1, 150⟩ 150 (by decide))
  exact ⟨h.1, h.2.2.1, h.2.2.2 ⟨"77", 0, 1, 100⟩ (by decide) (by decide)⟩

/-- Reconstruction accumulates exactly the raw weights of the steps it
prepends: an additive invariant between trueDuration and the path. -/
theorem recon_sum (previous : String → Option PreviousStep) (startNode : String) :
    ∀ (fuel : ℕ) (curr : String) (acc : List PathStep) (dur : ℚ) (r : PathResult),
      recon previous startNode fuel curr acc dur = .ok r →
      r.totalDuration + (acc.map (fun s => s.weight)).sum =
        dur + (r.path.map (fun s => s.weight)).sum := by
  intro fuel
  induction fuel with
  | zero => intro curr acc dur r h; simp [recon] at h
  | succ fuel ih =>
    intro curr acc dur r h
    rw [recon] at h
    by_cases hc : curr = startNode
    · rw [if_pos hc] at h
      injection h with h
      rw [← h]
    · rw [if_neg hc] at h
      cases hp : previous curr with
      | none =>
        rw [hp] at h
        injection h with h
        rw [← h]
      | some step =>
        rw [hp] at h
        have := ih _ _ _ _ h
        simp only [List.map_cons, List.sum_cons] at this
        linarith

/-- C1: every successful findPath reports a totalDuration equal to the sum of
the raw weight fields of the returned steps; the transfer penalties and the
walk multiplier affect only the internal scoring cost. -/
theorem pathfinder_total_duration_c1 (g : Graph) (startNode endNode : String)
    (tp : ℚ) (excl : List String) (r : PathResult)
    (h : findPath g startNode endNode tp excl = .ok r) :
    r.totalDuration = (r.path.map (fun s => s.weight)).sum := by
  unfold findPath at h
  split_ifs at h
  cases hrl : runLoop g endNode tp excl MAX_ITERATIONS (initState startNode) with
  | error e => rw [hrl] at h; exact absurd h (by simp)
  | ok st =>
    rw [hrl] at h
    dsimp only at h
    split_ifs at h
    have := recon_sum st.previous startNode 2000 endNode [] 0 r h
    simpa using this

/-- C1, witness: on the three-node fixture the fastest query from A to C
returns the two-leg path of weights 100 and 100 with totalDuration 200. -/
theorem pathfinder_total_duration_c1_witness :
    (⟨[⟨"A", "B", "1", 0, 100⟩, ⟨"B", "C", "2", 0, 100⟩], 200⟩ :
        PathResult).totalDuration =
      (([⟨"A", "B", "1", 0, 100⟩, ⟨"B", "C", "2", 0, 100⟩] :
          List PathStep).map (fun s => s.weight)).sum :=
  pathfinder_total_duration_c1 Fixtures.gAlt "A" "C" 0 []
    ⟨[⟨"A", "B", "1", 0, 100⟩, ⟨"B", "C", "2", 0, 100⟩], 200⟩ (by decide)

/-- The search loop can only fail by hitting the iteration cap. -/
theorem runLoop_error_timedOut (g : Graph) (endNode : String) (tp : ℚ)
    (excl : List String) :
    ∀ (fuel : ℕ) (st : SearchState) (err : FPError),
      runLoop g endNode tp excl fuel st = .error err → err = .timedOut := by
  intro fuel
  induction fuel with
  | zero =>
    intro st err h
    rw [runLoop] at h
    cases hpop : MinHeap.pop st.heap with
    | none => rw [hpop] at h; exact Except.noConfusion h
    | some pr =>
      rw [hpop] at h
      dsimp only at h
      injection h with h
      exact h.symm
  | succ fuel ih =>
    intro st err h
    rw [runLoop] at h
    cases hpop : MinHeap.pop st.heap with
    | none => rw [hpop] at h; exact Except.noConfusion h
    | some pr =>
      obtain ⟨current, heap'⟩ := pr
      rw [hpop] at h
      dsimp only at h
      by_cases hstale : staleEntry current.priority
          (({ st with heap := heap' } : SearchState).distances current.element)
      · rw [if_pos hstale] at h
        exact ih _ _ h
      · rw [if_neg hstale] at h
        by_cases hend : current.element = endNode
        · rw [if_pos hend] at h
          exact Except.noConfusion h
        · rw [if_neg hend] at h
          by_cases hvis : ({ st with heap := heap' } : SearchState).visited current.element
          · rw [if_pos hvis] at h
            exact ih _ _ h
          · rw [if_neg hvis] at h
            cases halu : alistLookup g current.element with
            | none => rw [halu] at h; exact ih _ _ h
            | some neighbors => rw [halu] at h; exact ih _ _ h

/-- Reconstruction can only fail with the reconstruction error. -/
theorem recon_error_kind (previous : String → Option PreviousStep) (startNode : String) :
    ∀ (fuel : ℕ) (curr : String) (acc : List PathStep) (dur : ℚ) (err : FPError),
      recon previous startNode fuel curr acc dur = .error err →
      err = .reconstructionFailed := by
  intro fuel
  induction fuel with
  | zero =>
    intro curr acc dur err h
    rw [recon] at h
    injection h with h
    exact h.symm
  | succ fuel ih =>
    intro curr acc dur err h
    rw [recon] at h
    by_cases hc : curr = startNode
    · rw [if_pos hc] at h
      exact Except.noConfusion h
    · rw [if_neg hc] at h
      cases hp : previous curr with
      | none => rw [hp] at h; exact Except.noConfusion h
      | some step => rw [hp] at h; exact ih _ _ _ _ h

/-- With origin equal to destination the loop pops the origin, hits the
termination test at once, and exits with no previous entries recorded. -/
theorem runLoop_self (g : Graph) (s : String) (tp : ℚ) (excl : List String) :
    runLoop g s tp excl MAX_ITERATIONS (initState s) =
      .ok { distances := mapSet (fun _ => none) s (some 0)
            previous := fun _ => none
            visited := fun _ => false
            heap := [] } := by
  have hpop : MinHeap.pop (initState s).heap = some (⟨s, 0⟩, []) := by
    simp [initState, MinHeap.push, MinHeap.bubbleUp, MinHeap.bubbleUpGo, MinHeap.pop]
  show runLoop g s tp excl (99999 + 1) (initState s) = _
  rw [runLoop, hpop]
  dsimp only
  have hd : (({ initState s with heap := [] } : SearchState)).distances s = some 0 := by
    simp [initState, mapSet]
  rw [if_neg (by rw [hd]; simp [staleEntry])]
  rw [if_pos rfl]
  rfl

/-- C10: findPath answers NoPathFound exactly when both endpoints validate,
the origin differs from the destination, and the loop exits with no previous
entry recorded for the destination; with origin equal to destination it
instead succeeds with the empty path of duration 0. -/
theorem pathfinder_no_path_found_c10 (g : Graph) (s e : String) (tp : ℚ)
    (excl : List String) :
    (findPath g s e tp excl = .error .noPathFound ↔
      ((alistLookup g s).isSome = true ∧ (alistLookup g e).isSome = true ∧ s ≠ e ∧
        prevOfRun g s e tp excl = some none)) ∧
    ((alistLookup g s).isSome = true → findPath g s s tp excl = .ok ⟨[], 0⟩) := by
  constructor
  · constructor
    · intro h
      unfold findPath at h
      by_cases h1 : (alistLookup g s).isNone
      · rw [if_pos h1] at h; exact absurd h (by simp)
      · rw [if_neg h1] at h
        by_cases h2 : (alistLookup g e).isNone
        · rw [if_pos h2] at h; exact absurd h (by simp)
        · rw [if_neg h2] at h
          cases hrl : runLoop g e tp excl MAX_ITERATIONS (initState s) with
          | error err =>
            rw [hrl] at h
            dsimp only at h
            injection h with h
            exact absurd (h ▸ runLoop_error_timedOut g e tp excl _ _ _ hrl) (by simp)
          | ok st =>
            rw [hrl] at h
            dsimp only at h
            split_ifs at h with hc
            · refine ⟨?_, ?_, hc.1, ?_⟩
              · cases halu : alistLookup g s <;> simp [halu] at h1 ⊢
              · cases halu : alistLookup g e <;> simp [halu] at h2 ⊢
              · unfold prevOfRun
                rw [hrl]
                dsimp only
                rw [hc.2]
            · exact absurd (recon_error_kind st.previous s 2000 e [] 0 _ h) (by simp)
    · rintro ⟨hs, he, hne, hprev⟩
      unfold prevOfRun at hprev
      cases hrl : runLoop g e tp excl MAX_ITERATIONS (initState s) with
      | error err => rw [hrl] at hprev; exact absurd hprev (by simp)
      | ok st =>
        rw [hrl] at hprev
        dsimp only at hprev
        injection hprev with hprev
        unfold findPath
        rw [if_neg (by cases halu : alistLookup g s <;> simp [halu] at hs ⊢)]
        rw [if_neg (by cases halu : alistLookup g e <;> simp [halu] at he ⊢)]
        rw [hrl]
        dsimp only
        rw [if_pos ⟨hne, hprev⟩]
  · intro hs
    unfold findPath
    rw [if_neg (by cases halu : alistLookup g s <;> simp [halu] at hs ⊢)]
    rw [if_neg (by cases halu : alistLookup g s <;> simp [halu] at hs ⊢)]
    rw [runLoop_self g s tp excl]
    dsimp only
    rw [if_neg (fun hh => hh.1 rfl)]
    rw [recon]
    rw [if_pos rfl]

/-- A pair produced by bestEdgeFor passes the mode filter. -/
theorem bestEdgeFor_admissible (edges : List Edge) (inc : Option String) (tp : ℚ)
    (excl : List String) (e : Edge) (c : ℚ)
    (h : bestEdgeFor edges inc tp excl = some (e, c)) : specAdmissible excl e := by
  rcases bestEdgeFold_sound inc tp excl edges none e c h with h1 | h2
  · exact absurd h1 (by simp)
  · exact h2.2.1

/-- Relaxing one neighbour entry preserves the admissibility invariant. -/
theorem relaxOne_prevInv (tp : ℚ) (excl : List String) (u : String) (pri : ℚ)
    (inc : Option String) (st : SearchState) (entry : String × List Edge)
    (hinv : PrevInv excl st) : PrevInv excl (relaxOne tp excl u pri inc st entry) := by
  unfold relaxOne
  by_cases he : entry.2 = []
  · rw [if_pos he]; exact hinv
  · rw [if_neg he]
    cases hbe : bestEdgeFor entry.2 inc tp excl with
    | none => exact hinv
    | some pr =>
      obtain ⟨be, bc⟩ := pr
      dsimp only
      by_cases hlt : ltFalsyInf (pri + bc) (st.distances entry.1)
      · rw [if_pos hlt]
        intro v ps hps
        dsimp only [mapSet] at hps
        by_cases hv : v = entry.1
        · rw [if_pos hv] at hps
          injection hps with hps
          rw [← hps]
          exact bestEdgeFor_admissible entry.2 inc tp excl be bc hbe
        · rw [if_neg hv] at hps
          exact hinv v ps hps
      · rw [if_neg hlt]; exact hinv

/-- Folding the relaxation over all neighbour entries preserves the
invariant. -/
theorem relaxFold_prevInv (tp : ℚ) (excl : List String) (u : String) (pri : ℚ)
    (inc : Option String) :
    ∀ (entries : List (String × List Edge)) (st : SearchState), PrevInv excl st →
      PrevInv excl (entries.foldl (relaxOne tp excl u pri inc) st) := by
  intro entries
  induction entries with
  | nil => intro st h; simpa using h
  | cons entry rest ih =>
    intro st h
    rw [List.foldl_cons]
    exact ih _ (relaxOne_prevInv tp excl u pri inc st entry h)

/-- The loop preserves the admissibility invariant through to its final
state. -/
theorem runLoop_prevInv (g : Graph) (endNode : String) (tp : ℚ)
    (excl : List String) :
    ∀ (fuel : ℕ) (st st' : SearchState), PrevInv excl st →
      runLoop g endNode tp excl fuel st = .ok st' → PrevInv excl st' := by
  intro fuel
  induction fuel with
  | zero =>
    intro st st' hinv h
    rw [runLoop] at h
    cases hpop : MinHeap.pop st.heap with
    | none =>
      rw [hpop] at h
      injection h with h
      rw [← h]; exact hinv
    | some pr => rw [hpop] at h; exact Except.noConfusion h
  | succ fuel ih =>
    intro st st' hinv h
    rw [runLoop] at h
    cases hpop : MinHeap.pop st.heap with
    | none =>
      rw [hpop] at h
      injection h with h
      rw [← h]; exact hinv
    | some pr =>
      obtain ⟨current, heap'⟩ := pr
      rw [hpop] at h
      dsimp only at h
      have hinv' : PrevInv excl ({ st with heap := heap' } : SearchState) := hinv
      by_cases hstale : staleEntry current.priority
          (({ st with heap := heap' } : SearchState).distances current.element)
      · rw [if_pos hstale] at h
        exact ih _ _ hinv' h
      · rw [if_neg hstale] at h
        by_cases hend : current.element = endNode
        · rw [if_pos hend] at h
          injection h with h
          rw [← h]; exact hinv'
        · rw [if_neg hend] at h
          by_cases hvis : ({ st with heap := heap' } : SearchState).visited current.element
          · rw [if_pos hvis] at h
            exact ih _ _ hinv' h
          · rw [if_neg hvis] at h
            cases halu : alistLookup g current.element with
            | none =>
              rw [halu] at h
              dsimp only at h
              refine ih _ _ ?_ h
              exact hinv'
            | some neighbors =>
              rw [halu] at h
              dsimp only at h
              refine ih _ _ ?_ h
              refine relaxFold_prevInv tp excl current.element current.priority _
                neighbors _ ?_
              exact hinv'

/-- Every step the reconstruction emits was accumulated already or carries
the service of some recorded previous edge. -/
theorem recon_steps (previous : String → Option PreviousStep) (startNode : String) :
    ∀ (fuel : ℕ) (curr : String) (acc : List PathStep) (dur : ℚ) (r : PathResult),
      recon previous startNode fuel curr acc dur = .ok r →
      ∀ step ∈ r.path, step ∈ acc ∨
        ∃ v ps, previous v = some ps ∧ step.service = ps.edge.service := by
  intro fuel
  induction fuel with
  | zero => intro curr acc dur r h; rw [recon] at h; exact Except.noConfusion h
  | succ fuel ih =>
    intro curr acc dur r h
    rw [recon] at h
    by_cases hc : curr = startNode
    · rw [if_pos hc] at h
      injection h with h
      intro step hs
      rw [← h] at hs
      exact Or.inl hs
    · rw [if_neg hc] at h
      cases hp : previous curr with
      | none =>
        rw [hp] at h
        injection h with h
        intro step hs
        rw [← h] at hs
        exact Or.inl hs
      | some ps =>
        rw [hp] at h
        intro step hs
        rcases ih _ _ _ _ h step hs with hacc | hex
        · rcases List.mem_cons.mp hacc with rfl | hacc'
          · exact Or.inr ⟨curr, ps, hp, rfl⟩
          · exact Or.inl hacc'
        · exact Or.inr hex

/-- C3: every step of every returned path whose service classifies to a
non-WALK mode has that mode outside the exclusion set; and a WALK-classified
edge passes the mode filter whatever the exclusion set, so WALK edges are
never excluded. -/
theorem pathfinder_exclusion_c3 :
    (∀ (g : Graph) (startNode endNode : String) (tp : ℚ) (excl : List String)
       (r : PathResult), findPath g startNode endNode tp excl = .ok r →
      ∀ step ∈ r.path, getServiceType step.service ≠ "WALK" →
        getServiceType step.service ∉ excl) ∧
    (∀ (excl : List String) (e : Edge), getServiceType e.service = "WALK" →
      specAdmissible excl e) := by
  constructor
  · intro g startNode endNode tp excl r h
    unfold findPath at h
    split_ifs at h
    cases hrl : runLoop g endNode tp excl MAX_ITERATIONS (initState startNode) with
    | error e => rw [hrl] at h; exact absurd h (by simp)
    | ok st =>
      rw [hrl] at h
      dsimp only at h
      split_ifs at h
      have hinv : PrevInv excl st := by
        refine runLoop_prevInv g endNode tp excl MAX_ITERATIONS (initState startNode) st ?_ hrl
        intro v ps hps
        exact absurd hps (by simp [initState])
      intro step hstep hwalk
      rcases recon_steps st.previous startNode 2000 endNode [] 0 r h step hstep with hacc | hex
      · exact absurd hacc (List.not_mem_nil step)
      · obtain ⟨v, ps, hps, hserv⟩ := hex
        rcases hinv v ps hps with hw | hnx
        · rw [hserv] at hwalk; exact absurd hw hwalk
        · rw [hserv]; exact hnx
  · intro excl e hw
    exact Or.inl hw

/-- C3, witness: excluding BUS, the returned single MRT step NSL1 classifies
to MRT, which is not in the exclusion set; and even with every mode excluded
a WALK query still succeeds through its WALK edge. -/
theorem pathfinder_exclusion_c3_witness :
    getServiceType (⟨"A", "B", "NSL1", 0, 60⟩ : PathStep).service ∉ ["BUS"] ∧
    findPath Fixtures.gWalk "A" "B" 0 ["BUS", "MRT", "LRT", "WALK"] =
      .ok ⟨[⟨"A", "B", "WALK", 0, 100⟩], 100⟩ := by
  constructor
  · exact pathfinder_exclusion_c3.1 Fixtures.gMrt "A" "B" 0 ["BUS"]
      ⟨[⟨"A", "B", "NSL1", 0, 60⟩], 60⟩ (by decide)
      ⟨"A", "B", "NSL1", 0, 60⟩ (by decide) (by decide)
  · decide

/-- C10, witness: on the isolated-node fixtures, A to B with no edge answers
NoPathFound, and A to A succeeds with the empty path. -/
theorem pathfinder_no_path_found_c10_witness :
    findPath Fixtures.gTwo "A" "B" 0 [] = .error .noPathFound ∧
    findPath Fixtures.gSelf "A" "A" 0 [] = .ok ⟨[], 0⟩ := by
  constructor
  · exact (pathfinder_no_path_found_c10 Fixtures.gTwo "A" "B" 0 []).1.mpr
      ⟨by decide, by decide, by decide, by decide⟩
  · exact (pathfinder_no_path_found_c10 Fixtures.gSelf "A" "A" 0 []).2 (by decide)

/-- pathsAreEqual decides pointwise (from, to, service) agreement of
equal-length paths; direction and weight are not compared. -/
theorem pathsAreEqual_iff : ∀ (a b : List PathStep),
    pathsAreEqual a b = true ↔
      List.Forall₂ (fun x y => x.fromId = y.fromId ∧ x.toId = y.toId ∧
        x.service = y.service) a b := by
  intro a
  induction a with
  | nil =>
    intro b
    cases b with
    | nil => simp [pathsAreEqual]
    | cons y ys => simp [pathsAreEqual]
  | cons x xs ih =>
    intro b
    cases b with
    | nil => simp [pathsAreEqual]
    | cons y ys =>
      by_cases hlen : xs.length = ys.length
      · have h1 : pathsAreEqual (x :: xs) (y :: ys) =
            ((x.fromId == y.fromId && x.toId == y.toId && x.service == y.service) &&
              ((xs.zip ys).all (fun p =>
                p.1.fromId == p.2.fromId && p.1.toId == p.2.toId &&
                  p.1.service == p.2.service))) := by
          unfold pathsAreEqual
          rw [if_neg (by simp [hlen])]
          simp [List.zip_cons_cons]
        have h2 : pathsAreEqual xs ys =
            (xs.zip ys).all (fun p =>
              p.1.fromId == p.2.fromId && p.1.toId == p.2.toId &&
                p.1.service == p.2.service) := by
          unfold pathsAreEqual
          rw [if_neg (by simp [hlen])]
        rw [h1, List.forall₂_cons, ← ih ys, h2]
        simp [Bool.and_assoc, and_assoc]
      · have h1 : pathsAreEqual (x :: xs) (y :: ys) = false := by
          unfold pathsAreEqual
          rw [if_pos (by simp [hlen])]
        rw [h1]
        constructor
        · intro h; exact absurd h (by simp)
        · intro h
          exact absurd (List.Forall₂.length_eq (List.forall₂_cons.mp h).2) hlen

/-- C4: a CALCULATE request answers the fastest-search error when that search
fails; otherwise it returns the fastest candidate first and appends the
direct candidate (transferPenalty 600) exactly when that search succeeds and
its path differs from the fastest under pathsAreEqual, which itself decides
structural (from, to, service) equality ignoring direction and weight. -/
theorem alternative_routes_c4 :
    (∀ (g : Graph) (s e : String) (excl : List String) (err : FPError),
      findPath g s e 0 excl = .error err →
        handleCalculate g s e excl = .resultError err) ∧
    (∀ (g : Graph) (s e : String) (excl : List String) (f : PathResult),
      findPath g s e 0 excl = .ok f →
        handleCalculate g s e excl = .routes
          (⟨"fastest", "Fastest", f.path, f.totalDuration⟩ ::
            (match findPath g s e DIRECT_ROUTE_PENALTY excl with
             | .ok d =>
               if pathsAreEqual f.path d.path then []
               else [⟨"direct", "Less Transfers", d.path, d.totalDuration⟩]
             | .error _ => []))) ∧
    (∀ (a b : List PathStep), pathsAreEqual a b = true ↔
      List.Forall₂ (fun x y => x.fromId = y.fromId ∧ x.toId = y.toId ∧
        x.service = y.service) a b) := by
  refine ⟨?_, ?_, pathsAreEqual_iff⟩
  · intro g s e excl err h
    unfold handleCalculate
    rw [h]
  · intro g s e excl f h
    unfold handleCalculate
    rw [h]
    dsimp only
    cases hd : findPath g s e DIRECT_ROUTE_PENALTY excl with
    | error err => rfl
    | ok d =>
      dsimp only
      by_cases hpe : pathsAreEqual f.path d.path
      · rw [if_pos hpe, if_pos hpe]
      · rw [if_neg hpe, if_neg hpe]
        rfl

/-- C4, witness: on the three-node fixture the response lists the fastest
two-leg candidate first and the differing direct candidate second; and
pathsAreEqual ignores direction and weight. -/
theorem alternative_routes_c4_witness :
    handleCalculate Fixtures.gAlt "A" "C" [] = .routes
      [⟨"fastest", "Fastest", [⟨"A", "B", "1", 0, 100⟩, ⟨"B", "C", "2", 0, 100⟩], 200⟩,
       ⟨"direct", "Less Transfers", [⟨"A", "C", "3", 0, 600⟩], 600⟩] ∧
    pathsAreEqual [⟨"A", "B", "1", 0, 100⟩] [⟨"A", "B", "1", 9, 777⟩] = true := by
  constructor
  · have h := alternative_routes_c4.2.1 Fixtures.gAlt "A" "C" []
      ⟨[⟨"A", "B", "1", 0, 100⟩, ⟨"B", "C", "2", 0, 100⟩], 200⟩ (by decide)
    exact h.trans (by decide)
  · exact (alternative_routes_c4.2.2 _ _).mpr
      (List.Forall₂.cons ⟨rfl, rfl, rfl⟩ List.Forall₂.nil)

end Pathfinder

namespace RouteFormatter

/-- The leg opened from one step is the compaction of the singleton run. -/
theorem initLeg_mkLeg (md : Metadata) (s : RouteStep) : initLeg md s = mkLeg md [s] := by
  simp [initLeg, mkLeg]

/-- Extending the compaction of a run by a step compacts the extended run. -/
theorem extendLeg_mkLeg (md : Metadata) (h : RouteStep) (t : List RouteStep)
    (s : RouteStep) :
    extendLeg md (mkLeg md (h :: t)) s = mkLeg md (h :: (t ++ [s])) := by
  simp only [extendLeg, mkLeg]
  have hlast : ((h :: (t ++ [s])).getLast?).getD h = s := by
    rw [show h :: (t ++ [s]) = (h :: t) ++ [s] by simp, List.getLast?_concat]
    rfl
  simp only [hlast]
  simp [List.sum_append]
  ring

/-- The formatRoute loop started on the compaction of an open run equals the
compaction of every maximal run the splitter produces. -/
theorem formatGo_chunkGo (md : Metadata) :
    ∀ (rest : List RouteStep) (h : RouteStep) (t : List RouteStep),
      formatGo md (mkLeg md (h :: t)) rest =
        (chunkGo (stepKey h) (h :: t) rest).map (mkLeg md) := by
  intro rest
  induction rest with
  | nil => intro h t; simp [formatGo, chunkGo]
  | cons s rest ih =>
    intro h t
    rw [formatGo, chunkGo]
    by_cases hk : stepKey s = stepKey h
    · rw [if_pos hk]
      have hcond : s.service = (mkLeg md (h :: t)).service ∧
          s.type = (mkLeg md (h :: t)).type := by
        have h1 := congrArg Prod.fst hk
        have h2 := congrArg Prod.snd hk
        simp [stepKey] at h1 h2
        simp [mkLeg, h1, h2]
      rw [if_pos hcond, extendLeg_mkLeg]
      exact ih h (t ++ [s])
    · rw [if_neg hk]
      have hcond : ¬ (s.service = (mkLeg md (h :: t)).service ∧
          s.type = (mkLeg md (h :: t)).type) := by
        intro hc
        apply hk
        simp [mkLeg] at hc
        simp [stepKey, hc.1, hc.2]
      rw [if_neg hcond, List.map_cons]
      rw [initLeg_mkLeg]
      exact congrArg (mkLeg md (h :: t) :: ·) (ih s [])

/-- formatRoute is the compaction of the maximal same-key runs. -/
theorem formatRoute_chunkRuns (path : List RouteStep) (md : Metadata) :
    formatRoute path md = (chunkRuns path).map (mkLeg md) := by
  cases path with
  | nil => rfl
  | cons p0 rest =>
    rw [formatRoute, chunkRuns, initLeg_mkLeg]
    exact formatGo_chunkGo md rest p0 []

/-- The splitter partitions: joining the runs restores the steps. -/
theorem chunkGo_join :
    ∀ (rest : List RouteStep) (k : String × String) (r : List RouteStep),
      (chunkGo k r rest).join = r ++ rest := by
  intro rest
  induction rest with
  | nil => intro k r; simp [chunkGo]
  | cons s rest ih =>
    intro k r
    rw [chunkGo]
    by_cases hk : stepKey s = k
    · rw [if_pos hk, ih]
      simp
    · rw [if_neg hk]
      simp [ih]

/-- Every run the splitter produces keeps the head element of its open run. -/
theorem chunkGo_head :
    ∀ (rest : List RouteStep) (k : String × String) (h : RouteStep) (t : List RouteStep),
      ∃ u cs, chunkGo k (h :: t) rest = (h :: u) :: cs := by
  intro rest
  induction rest with
  | nil => intro k h t; exact ⟨t, [], rfl⟩
  | cons s rest ih =>
    intro k h t
    rw [chunkGo]
    by_cases hk : stepKey s = k
    · rw [if_pos hk]
      exact ih k h (t ++ [s])
    · rw [if_neg hk]
      exact ⟨t, chunkGo (stepKey s) [s] rest, rfl⟩

/-- Every run the splitter produces is non-empty and constant in its key. -/
theorem chunkGo_const :
    ∀ (rest : List RouteStep) (k : String × String) (r : List RouteStep),
      r ≠ [] → (∀ x ∈ r, stepKey x = k) →
      ∀ c ∈ chunkGo k r rest, c ≠ [] ∧ ∃ kk, ∀ x ∈ c, stepKey x = kk := by
  intro rest
  induction rest with
  | nil =>
    intro k r hr hk c hc
    rw [chunkGo] at hc
    simp only [List.mem_singleton] at hc
    exact hc ▸ ⟨hr, k, hk⟩
  | cons s rest ih =>
    intro k r hr hk c hc
    rw [chunkGo] at hc
    by_cases hks : stepKey s = k
    · rw [if_pos hks] at hc
      refine ih k (r ++ [s]) (by simp) ?_ c hc
      intro x hx
      rcases List.mem_append.mp hx with hx | hx
      · exact hk x hx
      · rw [List.mem_singleton.mp hx]; exact hks
    · rw [if_neg hks] at hc
      rcases List.mem_cons.mp hc with rfl | hc'
      · exact ⟨hr, k, hk⟩
      · refine ih (stepKey s) [s] (by simp) ?_ c hc'
        intro x hx
        rw [List.mem_singleton.mp hx]

/-- Adjacent runs differ in key (maximality): the head keys of consecutive
runs disagree. -/
theorem chunkGo_chain :
    ∀ (rest : List RouteStep) (k : String × String) (h : RouteStep) (t : List RouteStep),
      (∀ x ∈ (h :: t), stepKey x = k) →
      List.Chain' (fun c1 c2 => c1.head?.map stepKey ≠ c2.head?.map stepKey)
        (chunkGo k (h :: t) rest) := by
  intro rest
  induction rest with
  | nil => intro k h t _; rw [chunkGo]; exact List.chain'_singleton _
  | cons s rest ih =>
    intro k h t hk
    rw [chunkGo]
    by_cases hks : stepKey s = k
    · rw [if_pos hks]
      refine ih k h (t ++ [s]) ?_
      intro x hx
      rcases List.mem_cons.mp hx with rfl | hx'
      · exact hk x (List.mem_cons_self _ _)
      · rcases List.mem_append.mp hx' with hx'' | hx''
        · exact hk x (List.mem_cons_of_mem _ hx'')
        · rw [List.mem_singleton.mp hx'']; exact hks
    · rw [if_neg hks]
      rw [List.chain'_cons']
      constructor
      · intro y hy
        obtain ⟨u, cs, hsplit⟩ := chunkGo_head rest (stepKey s) s []
        rw [hsplit] at hy
        simp only [List.head?_cons, Option.mem_def, Option.some.injEq] at hy
        rw [← hy]
        simp only [List.head?_cons, Option.map_some]
        intro hcontra
        injection hcontra with hcontra
        exact hks (by rw [← hcontra, hk h (List.mem_cons_self _ _)])
      · refine ih (stepKey s) s [] ?_
        intro x hx
        rw [List.mem_singleton.mp hx]

/-- The compacted leg of a run carries the run's length as stopCount and the
sum of its weights as duration. -/
theorem mkLeg_proj (md : Metadata) (c : List RouteStep) :
    (mkLeg md c).stopCount = c.length ∧
      (mkLeg md c).duration = (c.map (fun s => s.weight)).sum := by
  cases c with
  | nil => exact ⟨rfl, rfl⟩
  | cons h t => exact ⟨rfl, rfl⟩

/-- C6: for every non-empty step sequence, formatRoute compacts exactly the
maximal runs of steps agreeing on both type and service — the runs join back
to the path, each is non-empty and key-constant, adjacent runs differ in key —
and consequently leg durations sum to the step weights and leg stopCounts sum
to the number of steps. -/
theorem leg_compactor_c6 (path : List RouteStep) (md : Metadata) (hne : path ≠ []) :
    formatRoute path md = (chunkRuns path).map (mkLeg md) ∧
    (chunkRuns path).join = path ∧
    (∀ c ∈ chunkRuns path, c ≠ [] ∧ ∃ kk, ∀ x ∈ c, stepKey x = kk) ∧
    List.Chain' (fun c1 c2 => c1.head?.map stepKey ≠ c2.head?.map stepKey)
      (chunkRuns path) ∧
    ((formatRoute path md).map (fun l => l.duration)).sum =
      (path.map (fun s => s.weight)).sum ∧
    ((formatRoute path md).map (fun l => l.stopCount)).sum = path.length := by
  obtain ⟨p0, rest, rfl⟩ : ∃ p0 rest, path = p0 :: rest := by
    cases path with
    | nil => exact absurd rfl hne
    | cons p0 rest => exact ⟨p0, rest, rfl⟩
  have hjoin : (chunkRuns (p0 :: rest)).join = p0 :: rest := by
    rw [chunkRuns]; rw [chunkGo_join]; rfl
  have hfmt := formatRoute_chunkRuns (p0 :: rest) md
  refine ⟨hfmt, hjoin, ?_, ?_, ?_, ?_⟩
  · rw [chunkRuns]
    exact chunkGo_const rest (stepKey p0) [p0] (by simp)
      (by intro x hx; rw [List.mem_singleton.mp hx])
  · rw [chunkRuns]
    exact chunkGo_chain rest (stepKey p0) p0 []
      (by intro x hx; rw [List.mem_cons.mp hx |>.resolve_right (by simp)])
  · rw [hfmt, List.map_map]
    have hmap : (mkLeg md · |>.duration) = (fun c => (c.map (fun s => s.weight)).sum) := by
      funext c
      exact (mkLeg_proj md c).2
    calc ((chunkRuns (p0 :: rest)).map (fun c => (mkLeg md c).duration)).sum
        = ((chunkRuns (p0 :: rest)).map (fun c => (c.map (fun s => s.weight)).sum)).sum := by
          rw [show (fun c => (mkLeg md c).duration) =
            (fun c => (c.map (fun s => s.weight)).sum) from hmap]
      _ = (((chunkRuns (p0 :: rest)).map (List.map (fun s => s.weight))).map List.sum).sum := by
          rw [List.map_map]; rfl
      _ = (((chunkRuns (p0 :: rest)).map (List.map (fun s => s.weight))).join).sum := by
          rw [List.sum_join]
      _ = (((chunkRuns (p0 :: rest)).join).map (fun s => s.weight)).sum := by
          rw [List.map_join]
      _ = ((p0 :: rest).map (fun s => s.weight)).sum := by rw [hjoin]
  · rw [hfmt, List.map_map]
    have hmap : (mkLeg md · |>.stopCount) = (fun c : List RouteStep => c.length) := by
      funext c
      exact (mkLeg_proj md c).1
    calc ((chunkRuns (p0 :: rest)).map (fun c => (mkLeg md c).stopCount)).sum
        = ((chunkRuns (p0 :: rest)).map (fun c : List RouteStep => c.length)).sum := by
          rw [show (fun c => (mkLeg md c).stopCount) =
            (fun c : List RouteStep => c.length) from hmap]
      _ = ((chunkRuns (p0 :: rest)).join).length := by rw [List.length_join]
      _ = (p0 :: rest).length := by rw [hjoin]

/-- C6, witness: on the three-step fixture of two maximal runs, the legs sum
to the step weights (270) and to the step count (3). -/
theorem leg_compactor_c6_witness :
    ((formatRoute Fixtures.fmt3 Fixtures.mdABC).map (fun l => l.duration)).sum =
      (Fixtures.fmt3.map (fun s => s.weight)).sum ∧
    ((formatRoute Fixtures.fmt3 Fixtures.mdABC).map (fun l => l.stopCount)).sum =
      Fixtures.fmt3.length := by
  have h := leg_compactor_c6 Fixtures.fmt3 Fixtures.mdABC (by decide)
  exact ⟨h.2.2.2.2.1, h.2.2.2.2.2⟩

end RouteFormatter

namespace RouteProcessor

/-- The Bool continuity test agrees with the chain of
head-equals-previous-last conditions. -/
theorem segContinuous_iff : ∀ l : List RouteSegment,
    segContinuous l = true ↔
      List.Chain' (fun a b => b.positions.head? = a.positions.getLast?) l := by
  intro l
  induction l with
  | nil => simp [segContinuous]
  | cons a l ih =>
    cases l with
    | nil => simp [segContinuous]
    | cons b rest =>
      rw [segContinuous, List.chain'_cons]
      by_cases h : b.positions.head? = a.positions.getLast?
      · rw [if_pos h]
        rw [ih]
        simp [h]
      · rw [if_neg h]
        simp [h]

/-- Appending a point to the open polyline keeps the continuity chain: only
the head of the final segment participates in the chain. -/
theorem chain_replace_last (segs : List RouteSegment) (a b : RouteSegment)
    (hh : b.positions.head? = a.positions.head?)
    (hc : List.Chain' (fun x y => y.positions.head? = x.positions.getLast?)
      (segs ++ [a])) :
    List.Chain' (fun x y => y.positions.head? = x.positions.getLast?)
      (segs ++ [b]) := by
  rw [List.chain'_append] at hc ⊢
  refine ⟨hc.1, List.chain'_singleton _, ?_⟩
  intro x hx y hy
  simp only [List.head?_cons, Option.mem_def, Option.some.injEq] at hy
  rw [← hy, hh]
  exact hc.2.2 x hx a (by simp)

/-- Closing the open polyline and starting a new segment at its last point
extends the continuity chain. -/
theorem chain_push (segs : List RouteSegment) (a n : RouteSegment)
    (hc : List.Chain' (fun x y => y.positions.head? = x.positions.getLast?)
      (segs ++ [a]))
    (hn : n.positions.head? = a.positions.getLast?) :
    List.Chain' (fun x y => y.positions.head? = x.positions.getLast?)
      ((segs ++ [a]) ++ [n]) := by
  rw [List.chain'_append]
  refine ⟨hc, List.chain'_singleton _, ?_⟩
  intro x hx y hy
  simp only [List.head?_cons, Option.mem_def, Option.some.injEq] at hy
  rw [List.getLast?_concat] at hx
  simp only [Option.mem_def, Option.some.injEq] at hx
  rw [← hy, ← hx]
  exact hn

/-- The fold invariant for the segment builder: under chaining and full
metadata coverage, the open polyline stays non-empty, ends at the current
node's position, and closing it keeps the continuity chain. -/
theorem processFold_inv (md : RouteFormatter.Metadata) :
    ∀ (steps : List Pathfinder.PathStep) (node : String) (st : SegState),
      chainFromB node steps = true →
      (∀ s ∈ steps, (md s.fromId).isSome ∧ (md s.toId).isSome) →
      st.currentPoints ≠ [] →
      (∃ m, md node = some m ∧
        st.currentPoints.getLast? = some (m.lat, m.lng)) →
      List.Chain' (fun x y => y.positions.head? = x.positions.getLast?)
        (st.segs ++
          [⟨st.currentType, st.currentType, st.currentService, st.currentPoints⟩]) →
      (steps.foldl (processStep md) st).currentPoints ≠ [] ∧
      List.Chain' (fun x y => y.positions.head? = x.positions.getLast?)
        ((steps.foldl (processStep md) st).segs ++
          [⟨(steps.foldl (processStep md) st).currentType,
            (steps.foldl (processStep md) st).currentType,
            (steps.foldl (processStep md) st).currentService,
            (steps.foldl (processStep md) st).currentPoints⟩]) := by
  intro steps
  induction steps with
  | nil =>
    intro node st _ _ hne _ hchain
    exact ⟨hne, hchain⟩
  | cons s rest ih =>
    intro node st hch hcov hne hlast hchain
    rw [chainFromB, Bool.and_eq_true, beq_iff_eq] at hch
    obtain ⟨hfrom, hch'⟩ := hch
    obtain ⟨m, hmd, hlastpt⟩ := hlast
    obtain ⟨hfromSome, htoSome⟩ := hcov s (List.mem_cons_self _ _)
    obtain ⟨n, hton⟩ : ∃ n, md s.toId = some n := by
      cases hmn : md s.toId with
      | none => rw [hmn] at htoSome; exact absurd htoSome (by simp)
      | some n => exact ⟨n, rfl⟩
    rw [List.foldl_cons]
    have hstep : processStep md st s =
        (if s.service ≠ st.currentService then
          (⟨s.service, getServiceType s.service,
            [(m.lat, m.lng), (n.lat, n.lng)],
            st.segs ++ [⟨st.currentType, st.currentType, st.currentService,
              st.currentPoints⟩]⟩ : SegState)
        else { st with currentPoints := st.currentPoints ++ [(n.lat, n.lng)] }) := by
      rw [processStep, hton]
      dsimp only
      by_cases hsv : s.service ≠ st.currentService
      · rw [if_pos hsv, if_pos hsv, if_pos hne]
        rw [hfrom, hmd]
      · rw [if_neg hsv, if_neg hsv]
    rw [hstep]
    by_cases hsv : s.service ≠ st.currentService
    · rw [if_pos hsv]
      refine ih s.toId _ hch' (fun x hx => hcov x (List.mem_cons_of_mem _ hx))
        (by simp) ⟨n, hton, by simp⟩ ?_
      dsimp only
      refine chain_push _ _ _ hchain ?_
      dsimp only
      rw [hlastpt]
      rfl
    · rw [if_neg hsv]
      refine ih s.toId _ hch' (fun x hx => hcov x (List.mem_cons_of_mem _ hx))
        (by simp) ⟨n, hton, by simp⟩ ?_
      dsimp only
      refine chain_replace_last _ _ _ ?_ hchain
      dsimp only
      cases hcp : st.currentPoints with
      | nil => exact absurd hcp hne
      | cons p ps => simp

/-- C5, counterexample: on a chained two-step candidate path whose boundary
node B has no metadata entry, the segment builder emits segments [(0,0)] and
[(1,1),(1,1)], whose junction breaks the visual-continuity invariant. -/
theorem segment_continuity_cex_c5 :
    chainB Fixtures.p2 = true ∧
    segContinuous (generateSegments Fixtures.p2 Fixtures.mdHole) = false := by
  exact ⟨by decide, by decide⟩

/-- C5 (amended): for every candidate path that chains and all of whose nodes
have metadata entries, the RouteSegments produced by the segment builder
satisfy the visual-continuity invariant: each segment's first position equals
the previous segment's last position. -/
theorem segment_continuity_c5 (path : List Pathfinder.PathStep)
    (md : RouteFormatter.Metadata) (hchain : chainB path = true)
    (hcov : coveredB md path = true) :
    segContinuous (generateSegments path md) = true := by
  cases path with
  | nil => rfl
  | cons p0 rest =>
    have hcov' : ∀ s ∈ (p0 :: rest), (md s.fromId).isSome ∧ (md s.toId).isSome := by
      intro s hs
      have := (List.all_eq_true.mp hcov) s hs
      rw [Bool.and_eq_true] at this
      exact ⟨this.1, this.2⟩
    obtain ⟨firstNode, hfn⟩ : ∃ fn, md p0.fromId = some fn := by
      cases hmn : md p0.fromId with
      | none =>
        have := (hcov' p0 (List.mem_cons_self _ _)).1
        rw [hmn] at this
        exact absurd this (by simp)
      | some fn => exact ⟨fn, rfl⟩
    rw [generateSegments, hfn]
    dsimp only
    have hinv := processFold_inv md (p0 :: rest) p0.fromId
      ⟨p0.service, getServiceType p0.service, [(firstNode.lat, firstNode.lng)], []⟩
      (by rw [chainB] at hchain; exact hchain)
      hcov'
      (by simp)
      ⟨firstNode, hfn, by simp⟩
      (by simp)
    rw [if_pos hinv.1, segContinuous_iff]
    exact hinv.2

/-- C5, witness: on the same chained two-step path with full metadata, the
two segments produced are continuous. -/
theorem segment_continuity_c5_witness :
    segContinuous (generateSegments Fixtures.p2 Fixtures.mdABC) = true :=
  segment_continuity_c5 Fixtures.p2 Fixtures.mdABC (by decide) (by decide)

end RouteProcessor

namespace RouteUtils

/-- C7: the walk-guard of filterAndSortRoutes compares against the literal
WALKING, which no segment mode ever equals (modes are BUS, MRT, LRT, TRAIN,
TRAM, WALK), so a route consisting of a single WALK segment is removed when
WALK is in excludedModes — against the claim and the function's own comment —
while without exclusions the same route is kept. -/
theorem filter_walk_literal_bug_c7 :
    filterAndSortRoutes [Fixtures.walkRoute] ["WALK"] "FASTEST" = [] ∧
    filterAndSortRoutes [Fixtures.walkRoute] [] "FASTEST" = [Fixtures.walkRoute] := by
  exact ⟨by decide, by decide⟩

end RouteUtils

namespace CoordWorker

/-- C8: a coordinate-endpoint findPath call materialises the virtual __END__
edge into the loaded graph: after the call the adjacency of A holds an
__END__ entry that was absent at initialisation, and the graph no longer
equals its initial value — the aliased neighbors = graph[u] write is a real
mutation of the shared graph. -/
theorem worker_graph_mutation_c8 :
    (alistLookup
      ((alistLookup (findPathCoord Fixtures.dZero Fixtures.g8 Fixtures.md8
        (0, 0) (0, 0)).2 "A").getD []) "__END__").isSome = true ∧
    (alistLookup ((alistLookup Fixtures.g8 "A").getD []) "__END__") = none ∧
    (findPathCoord Fixtures.dZero Fixtures.g8 Fixtures.md8 (0, 0) (0, 0)).2 ≠
      Fixtures.g8 := by
  exact ⟨by decide, by decide, by decide⟩

/-- Documentation of the legacy divergence spec section 9 flags: this variant
reports distances[__END__] as totalDuration, so a path of two zero-weight
virtual walk edges is reported as 300 seconds (the transfer penalty), not the
0 the raw-weight reading mandates. -/
theorem coordWorker_duration_includes_penalty :
    (findPathCoord Fixtures.dZero Fixtures.g8 Fixtures.md8 (0, 0) (0, 0)).1 =
      .ok ([⟨"Current Location", "A", "WALK", "Start", 0⟩,
            ⟨"A", "Destination", "WALK", "End", 0⟩], 300) ∧
    (([⟨"Current Location", "A", "WALK", "Start", 0⟩,
       ⟨"A", "Destination", "WALK", "End", 0⟩] : List PathStepC).map
        (fun s => s.weight)).sum = 0 := by
  exact ⟨by decide, by decide⟩

end CoordWorker

end SingaTransit
